import Mathlib

/-!
Verification of the Dependency Graph Introspection Engine of the
`dependency-insight` CLI (src/index.js) against its natural-language
specification.

The development shallowly embeds the relevant JavaScript functions:

* `getTotalSizeInMB` (src/index.js:354-380) — the recursive filesystem size
  aggregator, over an inductive model of a filesystem subtree;
* `analyzeSize` (src/index.js:383-411) — the size-ledger builder
  (map, filter of zero sizes, stable descending sort, totals);
* the tier/color classification (src/index.js:397-404);
* `suggestAlternatives` (src/index.js:415-468) — the alternative matcher
  over the static `largeDeps` table;
* `printDependencyTree` (src/index.js:296-341) — the tree renderer, over a
  model of JSON-like values, since the function special-cases the key
  "dependencies" and reads fields dynamically.

Numbers are modelled with `ℚ` (exact rationals).  JavaScript's
`Number.prototype.toFixed(2)` (round to nearest hundredth, ties away from
zero toward +inf per the ECMAScript algorithm: pick the larger n) is
modelled by `toFixed2` below using Mathlib's `round` (round half up).
All inputs used in the theorems are exactly representable as binary64
floats and all intermediate values agree between binary64 and `ℚ`.
-/

namespace DepInsight

/-! ## Filesystem model for the size aggregator -/

/-- A filesystem subtree: a regular file with a byte size, a directory with
named entries in readdir order, or a symbolic link.  A link carries its
resolved target (`none` models a broken link, for which `statSync` throws). -/
inductive FsEntry where
  | file (size : ℕ)
  | dir (entries : List (String × FsEntry))
  | symlink (target : Option FsEntry)
deriving Repr

/-- Model of `fs.statSync`: it follows symbolic links, so the stats it
returns are never symlink stats; on a broken link it throws (`none`). -/
def resolve : FsEntry → Option FsEntry
  | .symlink (some t) => resolve t
  | .symlink none => none
  | .file sz => some (.file sz)
  | .dir entries => some (.dir entries)

/-- JavaScript `x.toFixed(2)` coerced back to a number: round to the nearest
hundredth, ties toward the larger value (ECMAScript picks the larger n). -/
def toFixed2 (q : ℚ) : ℚ := ((round (q * 100) : ℤ) : ℚ) / 100

mutual

/-- Translation of `getTotalSizeInMB` (src/index.js:354-380).  `readdirSync`
follows symlinks, so a link to a directory scans the target; on a regular
file or broken link `readdirSync` throws and the catch returns 0.  The
return value is megabytes rounded to two decimals (`.toFixed(2)`), and a
subdirectory's megabyte result is multiplied back to bytes
(`dirSize * 1024 * 1024`) before being accumulated. -/
def getTotalSizeInMB : FsEntry → ℚ
  | .symlink (some t) => getTotalSizeInMB t
  | .symlink none => 0
  | .file _ => 0
  | .dir entries =>
      match scanEntries entries with
      | none => 0
      | some totalSize => toFixed2 (totalSize / (1024 * 1024))

/-- The `for (const file of files)` loop body of `getTotalSizeInMB`:
skip ".", "..", ".git"; `statSync` each entry (throwing aborts the whole
directory scan, which then reports 0: modelled by `none`); the
`stats.isSymbolicLink()` branch is unreachable because `statSync` follows
links (see `resolve_not_symlink`), directories recurse and files add their
byte length. -/
def scanEntries : List (String × FsEntry) → Option ℚ
  | [] => some 0
  | (name, e) :: rest =>
      if name = "." ∨ name = ".." ∨ name = ".git" then
        scanEntries rest
      else
        match resolve e with
        | none => none
        | some (.symlink _) => scanEntries rest
        | some (.dir _) =>
            (scanEntries rest).map (fun r => getTotalSizeInMB e * (1024 * 1024) + r)
        | some (.file sz) => (scanEntries rest).map (fun r => (sz : ℚ) + r)

end

mutual

/-- A subtree (below a scanned directory) that consists exclusively of
directories and regular files whose sizes are 1048576 or 2097152 bytes:
the restriction in the claim about exact megabyte sums.  No symlinks. -/
def onlyMBFiles : FsEntry → Bool
  | .file sz => decide (sz = 1048576) || decide (sz = 2097152)
  | .dir entries => onlyMBFilesList entries
  | .symlink _ => false

/-- List version of `onlyMBFiles` for the entries of a directory. -/
def onlyMBFilesList : List (String × FsEntry) → Bool
  | [] => true
  | (_, e) :: rest => onlyMBFiles e && onlyMBFilesList rest

end

mutual

/-- The exact total byte count of the files a scan visits: files add their
size, entries named ".", ".." or ".git" are skipped, symlinks contribute
nothing (the spec's reference count). -/
def sumBytes : FsEntry → ℕ
  | .file sz => sz
  | .dir entries => sumBytesList entries
  | .symlink _ => 0

/-- List version of `sumBytes` for the entries of a directory. -/
def sumBytesList : List (String × FsEntry) → ℕ
  | [] => 0
  | (name, e) :: rest =>
      (if name = "." ∨ name = ".." ∨ name = ".git" then 0 else sumBytes e)
        + sumBytesList rest

end

/-! ## Size ledger builder (`analyzeSize`, src/index.js:383-411) -/

/-- One `{name, size}` record of the size ledger; `size` is the megabyte
value `parseFloat(getTotalSizeInMB(depPath))`. -/
structure PkgRec where
  name : String
  size : ℚ
deriving Repr, DecidableEq

/-- The `.map` stage of `analyzeSize` (src/index.js:383-392): one record per
direct dependency; a dependency whose install directory
`node_modules/<dep>` does not exist (modelled by `fsPkg dep = none`) yields
size 0, otherwise `parseFloat(getTotalSizeInMB(depPath))`. -/
def rawRecords (deps : List String) (fsPkg : String → Option FsEntry) :
    List PkgRec :=
  deps.map (fun dep =>
    match fsPkg dep with
    | none => { name := dep, size := 0 }
    | some e => { name := dep, size := getTotalSizeInMB e })

/-- The `.filter((pkg) => pkg.size > 0)` stage (src/index.js:393). -/
def displayedRecords (deps : List String) (fsPkg : String → Option FsEntry) :
    List PkgRec :=
  (rawRecords deps fsPkg).filter (fun r => decide (0 < r.size))

/-- One insertion step of a stable descending sort by size: the inserted
record goes after every already-placed record of greater or equal size. -/
def insertDesc (r : PkgRec) : List PkgRec → List PkgRec
  | [] => [r]
  | x :: xs => if r.size ≤ x.size then x :: insertDesc r xs else r :: x :: xs

/-- The `.sort((a, b) => b.size - a.size)` stage (src/index.js:394).
`Array.prototype.sort` is stable (ECMAScript 2019 onward), so it is the
stable descending sort by size, realised here as stable insertion sort. -/
def sortBySizeDesc (l : List PkgRec) : List PkgRec :=
  l.foldl (fun acc r => insertDesc r acc) []

/-- The warnings `Warning: <dep> not found in node_modules`
(src/index.js:387) name exactly the dependencies with no install dir. -/
def sizeWarnings (deps : List String) (fsPkg : String → Option FsEntry) :
    List String :=
  deps.filter (fun d => (fsPkg d).isNone)

/-- Output of `analyzeSize`: the ordered displayed records, the warned
package names, `Total packages` and `Total size` (src/index.js:406-411). -/
structure SizeReport where
  records : List PkgRec
  warnings : List String
  count : ℕ
  total : ℚ
deriving Repr

/-- Translation of `analyzeSize` (src/index.js:383-411): map each direct
dependency to a record, drop zero-size records, sort stably by descending
size; the displayed total is the sum of the (already per-package rounded)
sizes of the displayed records and the count is their number. -/
def analyzeSize (deps : List String) (fsPkg : String → Option FsEntry) :
    SizeReport :=
  let packageSizes := sortBySizeDesc (displayedRecords deps fsPkg)
  { records := packageSizes
  , warnings := sizeWarnings deps fsPkg
  , count := packageSizes.length
  , total := (packageSizes.map PkgRec.size).sum }

/-- The presentation classification of `analyzeSize` (src/index.js:397-404)
written with the spec's tier names: `chalk.red` ↔ "high" (size > 10),
`chalk.yellow` ↔ "medium" (size > 5), `chalk.green` ↔ "low" (otherwise). -/
def sizeTier (size : ℚ) : String :=
  if 10 < size then "high" else if 5 < size then "medium" else "low"

/-! ## Alternative matcher (`suggestAlternatives`, src/index.js:415-468) -/

/-- The static `largeDeps` substitution table (src/index.js:418-449),
in source order. -/
def largeDepsTable : List (String × String) :=
  [ ("moment", "date-fns")
  , ("luxon", "dayjs")
  , ("lodash", "lodash-es")
  , ("ramda", "ramda-adjunct")
  , ("axios", "fetch")
  , ("superagent", "undici")
  , ("string.js", "string")
  , ("sprintf-js", "tiny-sprintf")
  , ("jquery", "vanilla JS")
  , ("zepto", "vanilla JS")
  , ("chart.js", "chartist")
  , ("d3", "chart.js")
  , ("validator", "is.js")
  , ("joi", "yup")
  , ("redux", "valtio")
  , ("mobx", "effector")
  , ("moment-timezone", "timezone-mock")
  , ("fullcalendar", "flatpickr")
  , ("animejs", "gsap")
  , ("socket.io", "ws")
  , ("react-router", "wouter")
  , ("highcharts", "chart.js")
  , ("plotly.js", "chartist")
  , ("dropzone", "fine-uploader")
  , ("mathjs", "decimal.js")
  , ("numeral", "vanilla JS")
  , ("sharp", "image-size")
  , ("fabric", "konva")
  , ("bootstrap", "bulma")
  , ("tailwindcss", "tachyons") ]

/-- Property lookup `largeDeps[dep]` on the table literal. -/
def largeDeps (dep : String) : Option String :=
  (largeDepsTable.find? (fun p => p.1 = dep)).map Prod.snd

/-- The suggestion accumulation loop of `suggestAlternatives`
(src/index.js:454-460): `suggestions.push(...)` for each direct dependency
present in the table, in dependency iteration order. -/
def suggestionsFor (root : List String) : List String :=
  root.foldl
    (fun suggestions dep =>
      match largeDeps dep with
      | some alt =>
          suggestions ++ ["Consider using " ++ alt ++ " instead of " ++ dep]
      | none => suggestions)
    []

/-- The rendered outcome of `suggestAlternatives` (src/index.js:462-466):
an explicit no-suggestions message when the list is empty, otherwise the
suggestion lines. -/
inductive SuggestOutput where
  | noSuggestions
  | suggestions (msgs : List String)
deriving Repr, DecidableEq

/-- Translation of the output branch of `suggestAlternatives`. -/
def suggestAlternatives (root : List String) : SuggestOutput :=
  let s := suggestionsFor root
  if s.length = 0 then .noSuggestions else .suggestions s

/-! ## JSON-like values and the tree renderer (`printDependencyTree`,
src/index.js:296-341).  The renderer inspects a parsed `npm list --json`
object dynamically (it special-cases entries named "dependencies" and
reads `version`/`dependencies`/`peerDependencies` fields), so it is
embedded over a model of the JSON values that occur there: strings and
objects with ordered fields. -/

/-- A JSON-like value: a string, or an object with its fields in insertion
order. -/
inductive JVal where
  | jstr (s : String)
  | jobj (fields : List (String × JVal))
deriving Repr

/-- Property access `obj[key]`: objects yield their first field named
`key` (JSON object keys are unique); a string has none of the properties
accessed here (`undefined`, modelled as `none`). -/
def getField : JVal → String → Option JVal
  | .jobj fields, key => (fields.find? (fun p => p.1 = key)).map Prod.snd
  | .jstr _, _ => none

/-- JavaScript truthiness of the modelled values: the empty string is
falsy; every other string and every object (including `{}`) is truthy. -/
def isTruthy : JVal → Bool
  | .jstr s => decide (s ≠ "")
  | .jobj _ => true

/-- Template-literal stringification: a string is itself, an object prints
as "[object Object]". -/
def jsShow : JVal → String
  | .jstr s => s
  | .jobj _ => "[object Object]"

/-- `Object.entries` of a string value: one entry per character, keyed by
its decimal index. -/
def charEntries (s : String) : List (String × JVal) :=
  s.data.enum.map (fun p => (toString p.1, JVal.jstr p.2.toString))

/-- `Object.entries` of a value: the fields of an object in insertion
order; the index-keyed characters of a string. -/
def jsEntries : JVal → List (String × JVal)
  | .jobj fields => fields
  | .jstr s => charEntries s

/-- The node line version `info.version || "unknown"`: a missing version
property or an empty string falls back to "unknown" (src/index.js:305). -/
def versionShown (info : JVal) : String :=
  match getField info "version" with
  | some (.jstr v) => if v = "" then "unknown" else v
  | some (.jobj _) => "[object Object]"
  | none => "unknown"

/-- Indentation `"  ".repeat(level)` (src/index.js:297). -/
def indentStr : ℕ → String
  | 0 => ""
  | level + 1 => indentStr level ++ "  "

/-- The manifest path the renderer reads for a package name:
`node_modules/<name>/package.json` under the process cwd
(src/index.js:309-314) — a fixed top-level path keyed only by the name. -/
def depManifestPath (name : String) : String :=
  "node_modules/" ++ name ++ "/package.json"

/-- The peer-dependency entries the renderer iterates for a package name:
the entries of the truthy `peerDependencies` field of the manifest at
`depManifestPath name`; a failed read/parse (modelled as `none`) is
swallowed by the catch and an absent or falsy field is skipped
(src/index.js:315-328). -/
def declaredPeers (fsread : String → Option JVal) (name : String) :
    List (String × JVal) :=
  match fsread (depManifestPath name) with
  | none => []
  | some pkg =>
      match getField pkg "peerDependencies" with
      | some pd => if isTruthy pd then jsEntries pd else []
      | none => []

/-- The text of each peer annotation line before indentation:
`└─ requires <peer>@<range>` (src/index.js:320-324). -/
def peerLineTexts (fsread : String → Option JVal) (name : String) :
    List String :=
  (declaredPeers fsread name).map
    (fun p => "└─ requires " ++ p.1 ++ "@" ++ jsShow p.2)

/-- Rendering of one `Object.entries` entry of a string value: its name is
a decimal index (never "dependencies"), its value a one-character string,
which has no `version` property (the line shows "unknown") and no
`dependencies` property (no recursion); only the node line and the peer
lookup for the index-name remain. -/
def printStrEntries (fsread : String → Option JVal) (s : String)
    (level : ℕ) : List String :=
  (charEntries s).flatMap (fun p =>
    (indentStr level ++ p.1 ++ "@" ++ versionShown p.2)
      :: (peerLineTexts fsread p.1).map (fun t => indentStr level ++ "  " ++ t))

/-- Bound used for the renderer's termination: a field value found by
`getField` is structurally smaller than the object holding it. -/
theorem sizeOf_getField {info : JVal} {key : String} {d : JVal}
    (h : getField info key = some d) : sizeOf d < sizeOf info := by
  match info with
  | .jstr s => simp [getField] at h
  | .jobj fields =>
      rw [getField] at h
      rcases hf : fields.find? (fun p => p.1 = key) with _ | p
      · rw [hf] at h; simp at h
      · rw [hf] at h
        simp only [Option.map_some, Option.map_some', Option.some.injEq] at h
        have hmem := List.mem_of_find?_eq_some hf
        have h1 : sizeOf p < sizeOf fields := List.sizeOf_lt_of_mem hmem
        subst h
        obtain ⟨a, b⟩ := p
        simp only [JVal.jobj.sizeOf_spec, Prod.mk.sizeOf_spec] at *
        omega

mutual

/-- Translation of `printDependencyTree` (src/index.js:296-335), returning
the emitted lines: iterate `Object.entries(deps)`. -/
def printDependencyTree (fsread : String → Option JVal) :
    JVal → ℕ → List String
  | .jstr s, level => printStrEntries fsread s level
  | .jobj fields, level => printFields fsread fields level
termination_by v _ => sizeOf v
decreasing_by
  simp only [JVal.jobj.sizeOf_spec]
  omega

/-- The `Object.entries(deps).forEach` body (src/index.js:299-334): an
entry named "dependencies" recurses at the same level instead of printing;
any other entry prints its node line `<name>@<version>` at two spaces per
level, then one annotation line per declared peer at one extra indent
step, then recurses into its truthy `dependencies` field at `level + 1`. -/
def printFields (fsread : String → Option JVal) :
    List (String × JVal) → ℕ → List String
  | [], _ => []
  | (name, info) :: rest, level =>
      (if name = "dependencies" then
        printDependencyTree fsread info level
      else
        (indentStr level ++ name ++ "@" ++ versionShown info)
          :: ((peerLineTexts fsread name).map
                (fun t => indentStr level ++ "  " ++ t)
              ++ (match hd : getField info "dependencies" with
                  | some d =>
                      if isTruthy d then
                        printDependencyTree fsread d (level + 1)
                      else []
                  | none => [])))
      ++ printFields fsread rest level
termination_by fields _ => sizeOf fields
decreasing_by
  all_goals simp_wf
  all_goals try omega
  all_goals
    have h2 := sizeOf_getField hd
    omega

end

/-- The `dependencies` child branch of one rendered entry
(src/index.js:331-333): recurse into the truthy `dependencies` field at
the next level. -/
def childLines (fsread : String → Option JVal) (info : JVal) (level : ℕ) :
    List String :=
  match getField info "dependencies" with
  | some d => if isTruthy d then printDependencyTree fsread d (level + 1) else []
  | none => []

/-- The peer annotation texts as a function of the manifest value alone:
what `peerLineTexts` produces once the manifest file is fixed. -/
def peerTextsOfManifest : Option JVal → List String
  | none => []
  | some pkg =>
      match getField pkg "peerDependencies" with
      | some pd =>
          if isTruthy pd then
            (jsEntries pd).map
              (fun p => "└─ requires " ++ p.1 ++ "@" ++ jsShow p.2)
          else []
      | none => []

/-! ## The specified input shape and the reference rendering -/

/-- A node of the specified tree shape (spec §4.1): an optional resolved
version and an optional ordered child map. -/
inductive DNode where
  | mk (version : Option String) (children : Option (List (String × DNode)))
deriving Repr

mutual

/-- JSON encoding of a node of the specified shape: a `version` field when
declared, then a `dependencies` field when a child map is present. -/
def encodeNode : DNode → JVal
  | .mk ver children =>
      .jobj ((match ver with
              | some v => [("version", JVal.jstr v)]
              | none => [])
        ++ (match children with
            | some cs => [("dependencies", JVal.jobj (encodeList cs))]
            | none => []))

/-- JSON encoding of an ordered child map. -/
def encodeList : List (String × DNode) → List (String × JVal)
  | [] => []
  | (name, n) :: rest => (name, encodeNode n) :: encodeList rest

end

/-- The value handed to the renderer at the top call (src/index.js:340):
the specified shape `{dependencies: <child map>}`. -/
def encodeTop (nodes : List (String × DNode)) : JVal :=
  .jobj [("dependencies", JVal.jobj (encodeList nodes))]

mutual

/-- Number of nodes of a tree of the specified shape. -/
def countNodes : List (String × DNode) → ℕ
  | [] => 0
  | (_, n) :: rest => countNode n + countNodes rest

/-- Number of nodes rooted at one node (itself plus its subtree). -/
def countNode : DNode → ℕ
  | .mk _ none => 1
  | .mk _ (some cs) => 1 + countNodes cs

end

mutual

/-- Total number of peer annotation lines the tree gets: one per peer
dependency declared in the on-disk manifest of each node's name. -/
def peerCount (fsread : String → Option JVal) :
    List (String × DNode) → ℕ
  | [] => 0
  | (name, n) :: rest =>
      ((declaredPeers fsread name).length + peerCountChildren fsread n)
        + peerCount fsread rest

/-- Peer annotation lines inside one node's subtree, node itself excluded. -/
def peerCountChildren (fsread : String → Option JVal) : DNode → ℕ
  | .mk _ none => 0
  | .mk _ (some cs) => peerCount fsread cs

end

mutual

/-- No node of the tree is named "dependencies" (the key the renderer
hijacks as a nesting marker at every level). -/
def goodNames : List (String × DNode) → Bool
  | [] => true
  | (name, n) :: rest =>
      !decide (name = "dependencies") && goodNamesNode n && goodNames rest

/-- `goodNames` for the children of one node. -/
def goodNamesNode : DNode → Bool
  | .mk _ none => true
  | .mk _ (some cs) => goodNames cs

end

/-- Modelled from the spec (§4.1): the version shown for a node — the
declared version, with the sentinel "unknown" when absent (an empty
version string is falsy and also falls back). -/
def displayVersion : DNode → String
  | .mk none _ => "unknown"
  | .mk (some v) _ => if v = "" then "unknown" else v

mutual

/-- Modelled from the spec (§4.2): the reference rendering — depth-first
pre-order, one line `name@version` per node indented two spaces per depth,
the node's peer annotation lines immediately after its own line and before
any child line at depth + 1, children in input order at depth + 1. -/
def specRender (fsread : String → Option JVal) :
    List (String × DNode) → ℕ → List String
  | [], _ => []
  | (name, n) :: rest, level =>
      ((indentStr level ++ name ++ "@" ++ displayVersion n)
        :: ((peerLineTexts fsread name).map
              (fun t => indentStr (level + 1) ++ t)
            ++ specRenderChildren fsread n (level + 1)))
      ++ specRender fsread rest level

/-- Reference rendering of one node's children. -/
def specRenderChildren (fsread : String → Option JVal) : DNode → ℕ → List String
  | .mk _ none, _ => []
  | .mk _ (some cs), level => specRender fsread cs level

end

theorem resolve_not_symlink (e : FsEntry) :
    ∀ t, resolve e ≠ some (.symlink t) := by
  induction e using resolve.induct with
  | case1 t ih => intro u h; rw [resolve] at h; exact ih u h
  | case2 => intro u h; simp [resolve] at h
  | case3 sz => intro u h; simp [resolve] at h
  | case4 entries => intro u h; simp [resolve] at h

theorem toFixed2_natCast (n : ℕ) : toFixed2 (n : ℚ) = (n : ℚ) := by
  have h : ((n : ℚ) * 100) = ((n * 100 : ℕ) : ℚ) := by push_cast; ring
  rw [toFixed2, h, round_natCast]
  push_cast
  ring

theorem toFixed2_of_dvd {m : ℕ} (h : 1048576 ∣ m) :
    toFixed2 ((m : ℚ) / 1048576) = (m : ℚ) / 1048576 := by
  obtain ⟨k, hk⟩ := h
  subst hk
  have h1 : ((1048576 * k : ℕ) : ℚ) / 1048576 = (k : ℚ) := by
    push_cast
    field_simp
  rw [h1, toFixed2_natCast]

/-- On a subtree of whole-megabyte files the scan loop never throws and
accumulates the exact byte total, which is divisible by 1048576 (so the
per-level `toFixed(2)` rounding is lossless there). -/
theorem scanEntries_of_onlyMB :
    ∀ (N : ℕ) (entries : List (String × FsEntry)), sizeOf entries ≤ N →
      onlyMBFilesList entries = true →
      scanEntries entries = some ((sumBytesList entries : ℚ))
        ∧ 1048576 ∣ sumBytesList entries := by
  intro N
  induction N with
  | zero =>
      intro entries hsz _
      exfalso
      cases entries <;> simp_all
  | succ N ih =>
      intro entries hsz hmb
      match entries with
      | [] => simp [scanEntries, sumBytesList]
      | (name, e) :: rest =>
          simp only [onlyMBFilesList, Bool.and_eq_true] at hmb
          obtain ⟨hme, hmrest⟩ := hmb
          have hszrest : sizeOf rest ≤ N := by
            simp only [List.cons.sizeOf_spec] at hsz
            omega
          obtain ⟨ihrest, ihdvd⟩ := ih rest hszrest hmrest
          by_cases hskip : name = "." ∨ name = ".." ∨ name = ".git"
          · simp [scanEntries, hskip, sumBytesList, ihrest, ihdvd]
          · match e with
            | .file sz =>
                have hsz12 : sz = 1048576 ∨ sz = 2097152 := by
                  simpa [onlyMBFiles] using hme
                refine ⟨?_, ?_⟩
                · simp [scanEntries, hskip, resolve, ihrest, sumBytesList, sumBytes]
                · simp only [sumBytesList, sumBytes, hskip, if_false]
                  rcases hsz12 with h | h <;> subst h <;>
                    exact Nat.dvd_add (by norm_num) ihdvd
            | .dir entries2 =>
                have hmb2 : onlyMBFilesList entries2 = true := by
                  simpa [onlyMBFiles] using hme
                have hsz2 : sizeOf entries2 ≤ N := by
                  simp only [List.cons.sizeOf_spec, Prod.mk.sizeOf_spec,
                    FsEntry.dir.sizeOf_spec] at hsz
                  omega
                obtain ⟨ih2, ihdvd2⟩ := ih entries2 hsz2 hmb2
                have hval : getTotalSizeInMB (.dir entries2)
                    = ((sumBytesList entries2 : ℚ)) / 1048576 := by
                  simp only [getTotalSizeInMB, ih2]
                  rw [show ((1024 : ℚ) * 1024) = 1048576 by norm_num,
                    toFixed2_of_dvd ihdvd2]
                have harith : (sumBytesList entries2 : ℚ) / 1048576 * (1024 * 1024)
                    = (sumBytesList entries2 : ℚ) := by
                  rw [show ((1024 : ℚ) * 1024) = 1048576 by norm_num]
                  field_simp
                refine ⟨?_, ?_⟩
                · simp [scanEntries, hskip, resolve, ihrest, sumBytesList,
                    sumBytes, hval, harith]
                · simp only [sumBytesList, sumBytes, hskip, if_false]
                  exact Nat.dvd_add ihdvd2 ihdvd
            | .symlink t => simp [onlyMBFiles] at hme

theorem mem_insertDesc {a r : PkgRec} {l : List PkgRec} :
    a ∈ insertDesc r l ↔ a = r ∨ a ∈ l := by
  induction l with
  | nil => simp [insertDesc]
  | cons x xs ih =>
      rw [insertDesc]
      by_cases h : r.size ≤ x.size <;> simp [h, ih, or_left_comm]

theorem insertDesc_sorted {r : PkgRec} {l : List PkgRec}
    (h : l.Pairwise (fun a b => b.size ≤ a.size)) :
    (insertDesc r l).Pairwise (fun a b => b.size ≤ a.size) := by
  induction l with
  | nil => simp [insertDesc]
  | cons x xs ih =>
      rw [List.pairwise_cons] at h
      obtain ⟨hx, hxs⟩ := h
      rw [insertDesc]
      by_cases hle : r.size ≤ x.size
      · simp only [hle, if_true]
        rw [List.pairwise_cons]
        refine ⟨?_, ih hxs⟩
        intro b hb
        rcases mem_insertDesc.mp hb with rfl | hb
        · exact hle
        · exact hx b hb
      · simp only [hle, if_false]
        rw [List.pairwise_cons]
        refine ⟨?_, List.pairwise_cons.mpr ⟨hx, hxs⟩⟩
        intro b hb
        rcases List.mem_cons.mp hb with rfl | hb
        · exact le_of_lt (lt_of_not_le hle)
        · exact le_trans (hx b hb) (le_of_lt (lt_of_not_le hle))

theorem filter_insertDesc (r : PkgRec) (l : List PkgRec) (s : ℚ)
    (h : l.Pairwise (fun a b => b.size ≤ a.size)) :
    (insertDesc r l).filter (fun x => decide (x.size = s))
      = if r.size = s
        then l.filter (fun x => decide (x.size = s)) ++ [r]
        else l.filter (fun x => decide (x.size = s)) := by
  induction l with
  | nil => by_cases hr : r.size = s <;> simp [insertDesc, List.filter, hr]
  | cons x xs ih =>
      rw [List.pairwise_cons] at h
      obtain ⟨hx, hxs⟩ := h
      rw [insertDesc]
      by_cases hle : r.size ≤ x.size
      · simp only [hle, if_true]
        by_cases hxeq : x.size = s <;> by_cases hr : r.size = s <;>
          simp [List.filter_cons, hxeq, hr, ih hxs]
      · simp only [hle, if_false]
        have hlt : x.size < r.size := lt_of_not_le hle
        by_cases hr : r.size = s
        · have hempty : (x :: xs).filter (fun y => decide (y.size = s)) = [] := by
            rw [List.filter_eq_nil_iff]
            intro b hb
            rcases List.mem_cons.mp hb with rfl | hb
            · simp only [decide_eq_true_eq]
              intro hbs; subst hr; exact absurd hbs (ne_of_lt hlt)
            · simp only [decide_eq_true_eq]
              intro hbs; subst hr
              exact absurd hbs (ne_of_lt (lt_of_le_of_lt (hx b hb) hlt))
          rw [List.filter_cons]
          simp [hr, hempty]
        · simp [List.filter_cons, hr]

theorem foldl_insertDesc_sorted (l : List PkgRec) :
    ∀ acc : List PkgRec, acc.Pairwise (fun a b => b.size ≤ a.size) →
      (l.foldl (fun acc r => insertDesc r acc) acc).Pairwise
        (fun a b => b.size ≤ a.size) := by
  induction l with
  | nil => intro acc h; simpa using h
  | cons r rest ih =>
      intro acc h
      simpa using ih (insertDesc r acc) (insertDesc_sorted h)

theorem foldl_insertDesc_filter (l : List PkgRec) (s : ℚ) :
    ∀ acc : List PkgRec, acc.Pairwise (fun a b => b.size ≤ a.size) →
      (l.foldl (fun acc r => insertDesc r acc) acc).filter
          (fun x => decide (x.size = s))
        = acc.filter (fun x => decide (x.size = s))
            ++ l.filter (fun x => decide (x.size = s)) := by
  induction l with
  | nil => intro acc h; simp
  | cons r rest ih =>
      intro acc h
      rw [List.foldl_cons, ih (insertDesc r acc) (insertDesc_sorted h),
        filter_insertDesc r acc s h, List.filter_cons]
      by_cases hr : r.size = s <;> simp [hr]

theorem sortBySizeDesc_sorted (l : List PkgRec) :
    (sortBySizeDesc l).Pairwise (fun a b => b.size ≤ a.size) :=
  foldl_insertDesc_sorted l [] (by simp)

theorem sortBySizeDesc_filter (l : List PkgRec) (s : ℚ) :
    (sortBySizeDesc l).filter (fun x => decide (x.size = s))
      = l.filter (fun x => decide (x.size = s)) := by
  simpa using foldl_insertDesc_filter l s [] (by simp)

theorem getTotalSizeInMB_hundredth (e : FsEntry) :
    ∃ k : ℤ, getTotalSizeInMB e = (k : ℚ) / 100 := by
  induction e using resolve.induct with
  | case1 t ih => rw [getTotalSizeInMB]; exact ih
  | case2 => exact ⟨0, by simp [getTotalSizeInMB]⟩
  | case3 sz => exact ⟨0, by simp [getTotalSizeInMB]⟩
  | case4 entries =>
      rcases h : scanEntries entries with _ | ts
      · exact ⟨0, by simp [getTotalSizeInMB, h]⟩
      · exact ⟨round (ts / (1024 * 1024) * 100), by simp [getTotalSizeInMB, h, toFixed2]⟩

theorem toFixed2_hundredth {q : ℚ} (h : ∃ k : ℤ, q = (k : ℚ) / 100) :
    toFixed2 q = q := by
  obtain ⟨k, rfl⟩ := h
  rw [toFixed2]
  have : ((k : ℚ) / 100 * 100) = (k : ℚ) := by field_simp
  rw [this, round_intCast]

theorem sum_hundredth {l : List ℚ}
    (h : ∀ q ∈ l, ∃ k : ℤ, q = (k : ℚ) / 100) :
    ∃ k : ℤ, l.sum = (k : ℚ) / 100 := by
  induction l with
  | nil => exact ⟨0, by simp⟩
  | cons q rest ih =>
      obtain ⟨k1, hk1⟩ := h q (List.mem_cons_self q rest)
      obtain ⟨k2, hk2⟩ := ih (fun x hx => h x (List.mem_cons_of_mem q hx))
      refine ⟨k1 + k2, ?_⟩
      rw [List.sum_cons, hk1, hk2]
      push_cast
      ring

theorem mem_sortBySizeDesc {a : PkgRec} {l : List PkgRec} :
    a ∈ sortBySizeDesc l ↔ a ∈ l := by
  have aux : ∀ (l acc : List PkgRec),
      (a ∈ l.foldl (fun acc r => insertDesc r acc) acc ↔ a ∈ acc ∨ a ∈ l) := by
    intro l
    induction l with
    | nil => intro acc; simp
    | cons r rest ih =>
        intro acc
        rw [List.foldl_cons, ih (insertDesc r acc), mem_insertDesc]
        simp
        tauto
  rw [sortBySizeDesc, aux l []]
  simp

theorem c1_counterexample :
    getTotalSizeInMB (.dir [("a", .file 1048576), ("b", .file 2097152)]) = 3
  ∧ (3 : ℚ) ≠ 3145728
  ∧ getTotalSizeInMB
      (.dir [("s1", .dir [("f", .file 5243)]), ("s2", .dir [("f", .file 5243)])]) = 1/50
  ∧ getTotalSizeInMB (.dir [("f1", .file 5243), ("f2", .file 5243)]) = 1/100 := by
  refine ⟨?_, by norm_num, ?_, ?_⟩ <;>
    · simp [getTotalSizeInMB, scanEntries, resolve, toFixed2]
      norm_num [round_eq]

theorem c1_size_in_megabytes (entries : List (String × FsEntry))
    (h : onlyMBFilesList entries = true) :
    getTotalSizeInMB (.dir entries) = (sumBytesList entries : ℚ) / 1048576 := by
  obtain ⟨hscan, hdvd⟩ :=
    scanEntries_of_onlyMB (sizeOf entries) entries le_rfl h
  simp only [getTotalSizeInMB, hscan]
  rw [show ((1024 : ℚ) * 1024) = 1048576 by norm_num]
  exact toFixed2_of_dvd hdvd

theorem c1_witness :
    onlyMBFilesList [("a", FsEntry.file 1048576), ("b", FsEntry.file 2097152)] = true
  ∧ getTotalSizeInMB (.dir [("a", .file 1048576), ("b", .file 2097152)]) = 3 := by
  refine ⟨by decide, ?_⟩
  have h := c1_size_in_megabytes
    [("a", FsEntry.file 1048576), ("b", FsEntry.file 2097152)] (by decide)
  rw [h]
  simp [sumBytesList, sumBytes]
  norm_num

theorem c2_symlink_followed_and_counted :
    getTotalSizeInMB (.dir [("ln", .symlink (some (.file 2097152)))]) = 2
  ∧ (2 : ℚ) ≠ 0 := by
  refine ⟨?_, by norm_num⟩
  simp [getTotalSizeInMB, scanEntries, resolve, toFixed2]
  norm_num [round_eq]

theorem c3_counterexample :
    (analyzeSize ["a", "b"] (fun _ => some (.dir [("f", .file 5243)]))).total = 1/50
  ∧ toFixed2 (((sumBytes (.dir [("f", .file 5243)])
        + sumBytes (.dir [("f", .file 5243)]) : ℕ) : ℚ) / 1048576) = 1/100
  ∧ (1/50 : ℚ) ≠ 1/100 := by
  have hsz : getTotalSizeInMB (.dir [("f", .file 5243)]) = 1/100 := by
    simp [getTotalSizeInMB, scanEntries, resolve, toFixed2]
    norm_num [round_eq]
  refine ⟨?_, ?_, by norm_num⟩
  · simp only [analyzeSize, displayedRecords, rawRecords, sizeWarnings,
      List.map_cons, List.map_nil, hsz]
    norm_num [sortBySizeDesc, insertDesc, List.filter_cons, List.filter_nil,
      decide_eq_true_eq]
  · simp [sumBytes, sumBytesList]
    norm_num [toFixed2, round_eq]

theorem c3_ledger_accounting (deps : List String)
    (fsPkg : String → Option FsEntry) :
    (analyzeSize deps fsPkg).warnings = deps.filter (fun d => (fsPkg d).isNone)
  ∧ (rawRecords deps fsPkg).all
      (fun r => !((fsPkg r.name).isNone) || decide (r.size = 0)) = true
  ∧ (analyzeSize deps fsPkg).records.all (fun r => decide (0 < r.size)) = true
  ∧ (analyzeSize deps fsPkg).total
      = ((analyzeSize deps fsPkg).records.map PkgRec.size).sum
  ∧ toFixed2 (analyzeSize deps fsPkg).total = (analyzeSize deps fsPkg).total
  ∧ (analyzeSize deps fsPkg).count = (analyzeSize deps fsPkg).records.length := by
  refine ⟨rfl, ?_, ?_, rfl, ?_, rfl⟩
  · rw [List.all_eq_true]
    intro r hr
    rw [rawRecords, List.mem_map] at hr
    obtain ⟨dep, _, hdep⟩ := hr
    rcases hfs : fsPkg dep with _ | e
    · subst hdep; simp [hfs]
    · subst hdep; simp [hfs]
  · rw [List.all_eq_true]
    intro r hr
    have : r ∈ displayedRecords deps fsPkg := by
      have := hr
      simp only [analyzeSize] at this
      exact mem_sortBySizeDesc.mp this
    rw [displayedRecords, List.mem_filter] at this
    exact this.2
  · have hh : ∀ q ∈ ((analyzeSize deps fsPkg).records.map PkgRec.size),
        ∃ k : ℤ, q = (k : ℚ) / 100 := by
      intro q hq
      rw [List.mem_map] at hq
      obtain ⟨r, hr, rfl⟩ := hq
      have hmem : r ∈ rawRecords deps fsPkg := by
        have h1 : r ∈ displayedRecords deps fsPkg := by
          simp only [analyzeSize] at hr
          exact mem_sortBySizeDesc.mp hr
        rw [displayedRecords, List.mem_filter] at h1
        exact h1.1
      rw [rawRecords, List.mem_map] at hmem
      obtain ⟨dep, _, hdep⟩ := hmem
      rcases hfs : fsPkg dep with _ | e
      · rw [hfs] at hdep; subst hdep; exact ⟨0, by simp⟩
      · rw [hfs] at hdep; subst hdep
        simpa using getTotalSizeInMB_hundredth e
    have := sum_hundredth hh
    exact toFixed2_hundredth this

theorem c4_tier_classification :
    sizeTier 5 = "low" ∧ sizeTier 10 = "medium" ∧ sizeTier (1001/100) = "high"
  ∧ (∀ s : ℚ, 10 < s → sizeTier s = "high")
  ∧ (∀ s : ℚ, s ≤ 5 → sizeTier s = "low") := by
  refine ⟨by norm_num [sizeTier], by norm_num [sizeTier], by norm_num [sizeTier],
    ?_, ?_⟩
  · intro s hs
    rw [sizeTier, if_pos hs]
  · intro s hs
    rw [sizeTier, if_neg (by linarith), if_neg (by linarith)]

theorem c4_witness : sizeTier 12 = "high" ∧ sizeTier 3 = "low" :=
  ⟨c4_tier_classification.2.2.2.1 12 (by norm_num),
   c4_tier_classification.2.2.2.2 3 (by norm_num)⟩

theorem c5_alternative_matcher (root : List String) :
    suggestionsFor root
      = root.filterMap (fun dep => (largeDeps dep).map
          (fun alt => "Consider using " ++ alt ++ " instead of " ++ dep))
  ∧ suggestAlternatives ["lodash", "unknown-pkg"]
      = .suggestions ["Consider using lodash-es instead of lodash"]
  ∧ (suggestionsFor root = [] → suggestAlternatives root = .noSuggestions) := by
  refine ⟨?_, by decide, ?_⟩
  · have aux : ∀ (l : List String) (acc : List String),
        l.foldl
          (fun suggestions dep =>
            match largeDeps dep with
            | some alt =>
                suggestions ++ ["Consider using " ++ alt ++ " instead of " ++ dep]
            | none => suggestions)
          acc
        = acc ++ l.filterMap (fun dep => (largeDeps dep).map
            (fun alt => "Consider using " ++ alt ++ " instead of " ++ dep)) := by
      intro l
      induction l with
      | nil => intro acc; simp
      | cons dep rest ih =>
          intro acc
          rw [List.foldl_cons, List.filterMap_cons]
          rcases h : largeDeps dep with _ | alt
          · simp only [h]
            exact ih acc
          · simp only [h, Option.map_some]
            rw [ih]
            simp
    rw [suggestionsFor, aux root []]
    simp
  · intro h
    rw [suggestAlternatives]
    simp [h]

theorem c5_witness : suggestAlternatives ["my-own-package"] = .noSuggestions :=
  (c5_alternative_matcher ["my-own-package"]).2.2 (by decide)

theorem c8_sort_descending_stable (deps : List String)
    (fsPkg : String → Option FsEntry) :
    (analyzeSize deps fsPkg).records.Pairwise (fun a b => b.size ≤ a.size)
  ∧ ∀ s : ℚ,
      (analyzeSize deps fsPkg).records.filter (fun r => decide (r.size = s))
        = (displayedRecords deps fsPkg).filter (fun r => decide (r.size = s)) := by
  constructor
  · simp only [analyzeSize]
    exact sortBySizeDesc_sorted _
  · intro s
    simp only [analyzeSize]
    exact sortBySizeDesc_filter _ s

theorem peerLineTexts_eq_manifest (fsread : String → Option JVal)
    (name : String) :
    peerLineTexts fsread name
      = peerTextsOfManifest (fsread (depManifestPath name)) := by
  rw [peerLineTexts, declaredPeers]
  rcases hf : fsread (depManifestPath name) with _ | pkg
  · simp [peerTextsOfManifest]
  · rcases hp : getField pkg "peerDependencies" with _ | pd
    · simp [peerTextsOfManifest, hp]
    · by_cases h : isTruthy pd = true <;> simp [peerTextsOfManifest, hp, h]

theorem versionShown_encode (n : DNode) :
    versionShown (encodeNode n) = displayVersion n := by
  obtain ⟨ver, children⟩ := n
  cases ver <;> cases children <;>
    simp [encodeNode, versionShown, getField, displayVersion, List.find?]

theorem getField_encode_deps (ver : Option String)
    (children : Option (List (String × DNode))) :
    getField (encodeNode (.mk ver children)) "dependencies"
      = children.map (fun cs => JVal.jobj (encodeList cs)) := by
  cases ver <;> cases children <;>
    simp [encodeNode, getField, List.find?]

theorem printFields_encode :
    ∀ (N : ℕ) (nodes : List (String × DNode)) (fsread : String → Option JVal)
      (level : ℕ), sizeOf nodes ≤ N → goodNames nodes = true →
      printFields fsread (encodeList nodes) level
        = specRender fsread nodes level := by
  intro N
  induction N with
  | zero =>
      intro nodes fsread level hsz _
      exfalso
      cases nodes <;> simp_all
  | succ N ih =>
      intro nodes fsread level hsz hg
      match nodes with
      | [] => simp [encodeList, printFields, specRender]
      | (name, n) :: rest =>
          simp only [goodNames, Bool.and_eq_true, Bool.not_eq_true',
            decide_eq_false_iff_not] at hg
          obtain ⟨⟨hname, hgn⟩, hgrest⟩ := hg
          have hszrest : sizeOf rest ≤ N := by
            simp only [List.cons.sizeOf_spec] at hsz
            omega
          have hpeer : (peerLineTexts fsread name).map
                (fun t => indentStr level ++ "  " ++ t)
              = (peerLineTexts fsread name).map
                (fun t => indentStr (level + 1) ++ t) := by
            simp [indentStr]
          obtain ⟨ver, children⟩ := n
          rw [encodeList, printFields, if_neg hname, specRender,
            ih rest fsread level hszrest hgrest, versionShown_encode, hpeer]
          congr 3
          cases children with
          | none =>
              split
              · rename_i d heq
                rw [getField_encode_deps] at heq
                simp at heq
              · simp [specRenderChildren]
          | some cs =>
              have hszcs : sizeOf cs ≤ N := by
                simp only [List.cons.sizeOf_spec, Prod.mk.sizeOf_spec,
                  DNode.mk.sizeOf_spec, Option.some.sizeOf_spec] at hsz
                omega
              have hgcs : goodNames cs = true := by
                simpa [goodNamesNode] using hgn
              split
              · rename_i d heq
                rw [getField_encode_deps] at heq
                simp only [Option.map_some, Option.map_some',
                  Option.some.injEq] at heq
                subst heq
                rw [show isTruthy (JVal.jobj (encodeList cs)) = true from rfl,
                  if_pos rfl, printDependencyTree, specRenderChildren]
                exact ih cs fsread (level + 1) hszcs hgcs
              · rename_i heq
                rw [getField_encode_deps] at heq
                simp at heq

theorem specRender_length :
    ∀ (N : ℕ) (nodes : List (String × DNode)) (fsread : String → Option JVal)
      (level : ℕ), sizeOf nodes ≤ N →
      (specRender fsread nodes level).length
        = countNodes nodes + peerCount fsread nodes := by
  intro N
  induction N with
  | zero =>
      intro nodes fsread level hsz
      exfalso
      cases nodes <;> simp_all
  | succ N ih =>
      intro nodes fsread level hsz
      match nodes with
      | [] => simp [specRender, countNodes, peerCount]
      | (name, n) :: rest =>
          have hszrest : sizeOf rest ≤ N := by
            simp only [List.cons.sizeOf_spec] at hsz
            omega
          obtain ⟨ver, children⟩ := n
          rw [specRender, countNodes, peerCount]
          simp only [List.length_append, List.length_cons, List.length_map,
            peerLineTexts, ih rest fsread level hszrest]
          cases children with
          | none =>
              rw [specRenderChildren, countNode, peerCountChildren]
              simp only [List.length_nil]
              omega
          | some cs =>
              have hszcs : sizeOf cs ≤ N := by
                simp only [List.cons.sizeOf_spec, Prod.mk.sizeOf_spec,
                  DNode.mk.sizeOf_spec, Option.some.sizeOf_spec] at hsz
                omega
              rw [specRenderChildren, ih cs fsread (level + 1) hszcs,
                countNode, peerCountChildren]
              omega

theorem c6_counterexample :
    printDependencyTree (fun _ => none)
        (encodeTop [("dependencies", DNode.mk none none)]) 0 = ([] : List String)
  ∧ countNodes [("dependencies", DNode.mk none none)]
      + peerCount (fun _ => none) [("dependencies", DNode.mk none none)] = 1 := by
  constructor
  · simp [encodeTop, encodeList, encodeNode, printDependencyTree, printFields]
  · simp [countNodes, countNode, peerCount, peerCountChildren, declaredPeers]

theorem printTop_encode (fsread : String → Option JVal)
    (nodes : List (String × DNode)) (h : goodNames nodes = true) :
    printDependencyTree fsread (encodeTop nodes) 0
      = specRender fsread nodes 0 := by
  have h1 : printDependencyTree fsread (encodeTop nodes) 0
      = printFields fsread (encodeList nodes) 0 := by
    simp [encodeTop, printDependencyTree, printFields]
  exact h1.trans (printFields_encode (sizeOf nodes) nodes fsread 0 le_rfl h)

theorem c6_render_line_count (fsread : String → Option JVal)
    (nodes : List (String × DNode)) (h : goodNames nodes = true) :
    printDependencyTree fsread (encodeTop nodes) 0 = specRender fsread nodes 0
  ∧ (printDependencyTree fsread (encodeTop nodes) 0).length
      = countNodes nodes + peerCount fsread nodes := by
  refine ⟨printTop_encode fsread nodes h, ?_⟩
  rw [printTop_encode fsread nodes h]
  exact specRender_length (sizeOf nodes) nodes fsread 0 le_rfl

theorem c6_witness :
    goodNames [("lodash", DNode.mk (some "4.17.19") none)] = true
  ∧ printDependencyTree (fun _ => none)
      (encodeTop [("lodash", DNode.mk (some "4.17.19") none)]) 0
      = ["lodash@4.17.19"] := by
  refine ⟨by decide, ?_⟩
  rw [(c6_render_line_count (fun _ => none)
    [("lodash", DNode.mk (some "4.17.19") none)] (by decide)).1]
  simp [specRender, specRenderChildren, displayVersion, peerLineTexts,
    declaredPeers, indentStr]

theorem c7_children_in_order_no_dedup (fsread : String → Option JVal)
    (fields1 fields2 : List (String × JVal)) (level : ℕ) :
    printFields fsread (fields1 ++ fields2) level
      = printFields fsread fields1 level ++ printFields fsread fields2 level
  ∧ printDependencyTree (fun _ => none)
      (encodeTop [("lodash", DNode.mk (some "1.0.0") none),
                  ("axios", DNode.mk (some "0.21.1")
                    (some [("lodash", DNode.mk (some "2.0.0") none)]))]) 0
      = ["lodash@1.0.0", "axios@0.21.1", "  lodash@2.0.0"] := by
  constructor
  · induction fields1 with
    | nil => simp [printFields]
    | cons a l1 ihl =>
        obtain ⟨name, info⟩ := a
        rw [List.cons_append, printFields, ihl]
        conv_rhs => rw [printFields]
        rw [List.append_assoc]
  · rw [printTop_encode (fun _ => none) _ (by decide)]
    simp [specRender, specRenderChildren, displayVersion, peerLineTexts,
      declaredPeers, indentStr]

theorem c9_missing_fields_default (fsread : String → Option JVal)
    (name : String) (info : JVal) (level : ℕ)
    (hn : name ≠ "dependencies")
    (hv : getField info "version" = none)
    (hd : getField info "dependencies" = none) :
    printFields fsread [(name, info)] level
      = (indentStr level ++ name ++ "@unknown")
        :: (peerLineTexts fsread name).map
            (fun t => indentStr level ++ "  " ++ t) := by
  have hvs : versionShown info = "unknown" := by simp [versionShown, hv]
  rw [printFields, if_neg hn, hvs]
  split
  · rename_i d heq
    rw [hd] at heq
    exact absurd heq (by simp)
  · simp [printFields, String.append_assoc]

theorem c9_witness :
    printFields (fun _ => none) [("foo", JVal.jobj [])] 0 = ["foo@unknown"] := by
  have h := c9_missing_fields_default (fun _ => none) "foo" (JVal.jobj []) 0
    (by decide) (by simp [getField]) (by simp [getField])
  rw [h]
  simp [peerLineTexts, declaredPeers, indentStr]

theorem printFields_single (fsread : String → Option JVal) (name : String)
    (info : JVal) (level : ℕ) (hn : name ≠ "dependencies") :
    printFields fsread [(name, info)] level
      = (indentStr level ++ name ++ "@" ++ versionShown info)
        :: ((peerLineTexts fsread name).map
              (fun t => indentStr level ++ "  " ++ t)
            ++ childLines fsread info level) := by
  rw [printFields, if_neg hn, printFields, List.append_nil]
  split
  · rename_i d heq
    simp [childLines, heq]
  · rename_i heq
    simp [childLines, heq]

theorem c10_peer_lookup_by_name (fsread : String → Option JVal)
    (name : String) (info1 info2 : JVal) (lv1 lv2 : ℕ)
    (hn : name ≠ "dependencies") :
    printFields fsread [(name, info1)] lv1
      = (indentStr lv1 ++ name ++ "@" ++ versionShown info1)
        :: ((peerLineTexts fsread name).map
              (fun t => indentStr lv1 ++ "  " ++ t)
            ++ childLines fsread info1 lv1)
  ∧ printFields fsread [(name, info2)] lv2
      = (indentStr lv2 ++ name ++ "@" ++ versionShown info2)
        :: ((peerLineTexts fsread name).map
              (fun t => indentStr lv2 ++ "  " ++ t)
            ++ childLines fsread info2 lv2)
  ∧ peerLineTexts fsread name
      = peerTextsOfManifest (fsread (depManifestPath name)) :=
  ⟨printFields_single fsread name info1 lv1 hn,
   printFields_single fsread name info2 lv2 hn,
   peerLineTexts_eq_manifest fsread name⟩

theorem c10_witness :
    printFields
        (fun p => if p = "node_modules/react/package.json"
          then some (JVal.jobj [("peerDependencies",
            JVal.jobj [("react-dom", JVal.jstr "^17")])])
          else none)
        [("react", JVal.jobj [("version", JVal.jstr "16.8.0")])] 0
      = ["react@16.8.0", "  └─ requires react-dom@^17"]
  ∧ printFields
        (fun p => if p = "node_modules/react/package.json"
          then some (JVal.jobj [("peerDependencies",
            JVal.jobj [("react-dom", JVal.jstr "^17")])])
          else none)
        [("react", JVal.jobj [("version", JVal.jstr "17.0.2")])] 2
      = ["    react@17.0.2", "      └─ requires react-dom@^17"] := by
  obtain ⟨h1, h2, -⟩ := c10_peer_lookup_by_name
    (fun p => if p = "node_modules/react/package.json"
      then some (JVal.jobj [("peerDependencies",
        JVal.jobj [("react-dom", JVal.jstr "^17")])])
      else none)
    "react" (JVal.jobj [("version", JVal.jstr "16.8.0")])
    (JVal.jobj [("version", JVal.jstr "17.0.2")]) 0 2 (by decide)
  rw [h1, h2]
  constructor <;>
    simp [versionShown, getField, peerLineTexts, declaredPeers,
      depManifestPath, isTruthy, jsEntries, jsShow, childLines, indentStr,
      List.find?, String.append_assoc]

end DepInsight
